import Mathlib

/-!
Verification of the go-tuf client (`src/client/client.go`) against its
natural-language specification.

The embedding is shallow: the client's state, its local and remote stores,
and its operations are translated into executable Lean definitions.  Byte
strings are `List Nat`; Go `int`/`int64` values (versions, lengths, sizes)
are `Int`; Go maps are association lists.  The packages `signed`, `keys`
and `util` of the repository are not part of the given sources, so the
definitions that stand for them are modelled from the specification and
are marked as such in their doc comments.

Parsed role documents are carried alongside raw bytes in a `Blob`; the
parse result is an input of the model rather than a function of the bytes.
Every theorem below is insensitive to the value of the parsed document
carried with a byte string, so this abstraction is sound: each real
execution corresponds to a model execution with the same outcome.
-/

namespace GoTuf

/-- Association-list lookup on string keys, modelling Go map indexing. -/
def assoc {α : Type} : List (String × α) → String → Option α
  | [], _ => none
  | p :: rest, k => if p.1 = k then some p.2 else assoc rest k

/-- Association-list update, modelling Go map assignment. -/
def setAssoc {α : Type} : List (String × α) → String → α → List (String × α)
  | [], k, v => [(k, v)]
  | p :: rest, k, v => if p.1 = k then (k, v) :: rest else p :: setAssoc rest k v

/-- Whether an `Except` value is a success. -/
def exOk {ε α : Type} : Except ε α → Bool
  | .ok _ => true
  | .error _ => false

instance {ε α : Type} [DecidableEq ε] [DecidableEq α] : DecidableEq (Except ε α) :=
  fun a b =>
    match a, b with
    | .error x, .error y =>
      if h : x = y then isTrue (h ▸ rfl) else isFalse (fun hc => h (Except.error.inj hc))
    | .ok x, .ok y =>
      if h : x = y then isTrue (h ▸ rfl) else isFalse (fun hc => h (Except.ok.inj hc))
    | .error _, .ok _ => isFalse (fun hc => Except.noConfusion hc)
    | .ok _, .error _ => isFalse (fun hc => Except.noConfusion hc)

/-- FileMeta from `data.FileMeta`: a length and a map from hash-algorithm
names to digests.  Digest values are abstracted to `Nat`. -/
structure FileMeta where
  length : Int
  hashes : List (String × Nat)
deriving DecidableEq, Repr

/-- Modelled from the spec: the digest produced by the hash computer over a
byte stream.  An executable stand-in for SHA-512; no theorem below relies
on collision resistance, only on the digest being a function of the bytes. -/
def hashBytes (b : List Nat) : Nat :=
  b.foldl (fun a x => a * 257 + x + 1) 7

/-- Modelled from the spec: `util.GenerateFileMeta`, measuring a byte string
into a FileMeta carrying its length and its sha512 digest. -/
def generateFileMeta (b : List Nat) : FileMeta :=
  ⟨Int.ofNat b.length, [("sha512", hashBytes b)]⟩

/-- Errors of the `util` package: wrong length, wrong hash on a shared
algorithm, or no shared algorithm at all. -/
inductive UtilError
  | wrongLength
  | wrongHash (alg : String)
  | noCommonHash
deriving DecidableEq, Repr

/-- Modelled from the spec: `util.FileMetaEqual`.  Two FileMeta values are
equal iff lengths match and every shared-algorithm digest matches; absence
of any shared algorithm is a verification failure (`noCommonHash`). -/
def fileMetaEqual (actual expected : FileMeta) : Except UtilError Unit :=
  if actual.length ≠ expected.length then .error .wrongLength
  else
    let shared := expected.hashes.filter (fun p => (assoc actual.hashes p.1).isSome)
    if shared = [] then .error .noCommonHash
    else
      match shared.find? (fun p => assoc actual.hashes p.1 ≠ some p.2) with
      | some p => .error (.wrongHash p.1)
      | none => .ok ()

/-- A public key; its `id` field stands for the fingerprint derived from its
canonical encoding. -/
structure Key where
  id : String
deriving DecidableEq, Repr

/-- A role entry of a root document: key ids and a signature threshold. -/
structure RoleInfo where
  keyIDs : List String
  threshold : Int
deriving DecidableEq, Repr

/-- One signature of a signed envelope.  The `valid` field abstracts "the
signature value verifies against the canonical encoding of the payload
under the key with this id". -/
structure Sig where
  keyID : String
  valid : Bool
deriving DecidableEq, Repr

/-- A parsed role document together with its envelope's signatures.  One
structure covers all four roles; each role reads only its own fields, as Go's
`json.Unmarshal` ignores unknown fields. -/
structure SignedDoc where
  roleType : String
  version : Int
  expired : Bool
  keys : List (String × Key)
  roles : List (String × RoleInfo)
  meta : List (String × FileMeta)
  targets : List (String × FileMeta)
  sigs : List Sig
deriving DecidableEq, Repr

/-- Errors of the signature verifier (`signed` package). -/
inductive VerifyError
  | malformed
  | wrongType
  | unknownRole
  | roleThreshold
  | lowVersion (got current : Int)
  | expired
deriving DecidableEq, Repr

/-- The key database of the `keys` package: trusted keys and role bindings. -/
structure KeyDB where
  keys : List (String × Key)
  roles : List (String × RoleInfo)
deriving DecidableEq, Repr

/-- The empty key database. -/
def emptyDB : KeyDB := ⟨[], []⟩

/-- Modelled from the spec: counting signatures that may contribute to a
role's threshold.  A signature counts iff its key id is listed for the role,
the key is present in the database, the signature verifies, and no earlier
counted signature used the same key id. -/
def countSigs (db : KeyDB) (r : RoleInfo) : List Sig → List String → Nat
  | [], _ => 0
  | s :: rest, used =>
    if s.keyID ∈ r.keyIDs ∧ (assoc db.keys s.keyID).isSome ∧ s.valid = true ∧ s.keyID ∉ used then
      countSigs db r rest (s.keyID :: used) + 1
    else
      countSigs db r rest used

/-- Modelled from the spec: the role-independent part of signature
verification — role-type tag, role lookup, and the signature threshold. -/
def verifyAux (d : SignedDoc) (role : String) (db : KeyDB) : Except VerifyError Unit :=
  if d.roleType ≠ role then .error .wrongType
  else
    match assoc db.roles role with
    | none => .error .unknownRole
    | some r =>
      if Int.ofNat (countSigs db r d.sigs []) < r.threshold then .error .roleThreshold
      else .ok ()

/-- Modelled from the spec: `signed.Verify` — type, role, threshold, then the
strict version floor (`lowVersion` when `version < minVersion`), then expiry. -/
def signedVerify (d : SignedDoc) (role : String) (minVersion : Int) (db : KeyDB) :
    Except VerifyError Unit :=
  match verifyAux d role db with
  | .error e => .error e
  | .ok _ =>
    if d.version < minVersion then .error (.lowVersion d.version minVersion)
    else if d.expired then .error .expired
    else .ok ()

/-- A byte string paired with its parse result as a signed role document. -/
structure Blob where
  bytes : List Nat
  doc : Option SignedDoc
deriving DecidableEq, Repr

/-- Modelled from the spec: `signed.Unmarshal` — parse the bytes, then run
the full verifier, returning the document. -/
def signedUnmarshal (b : Blob) (role : String) (minVersion : Int) (db : KeyDB) :
    Except VerifyError SignedDoc :=
  match b.doc with
  | none => .error .malformed
  | some d =>
    match signedVerify d role minVersion db with
    | .error e => .error e
    | .ok _ => .ok d

/-- Modelled from the spec: `signed.UnmarshalTrusted`, used on local bytes.
It skips the expiry check; the call site in `getLocalMeta` passes no version,
so no version floor is applied either. -/
def unmarshalTrusted (b : Blob) (role : String) (db : KeyDB) :
    Except VerifyError SignedDoc :=
  match b.doc with
  | none => .error .malformed
  | some d =>
    match verifyAux d role db with
    | .error e => .error e
    | .ok _ => .ok d

/-- The error taxonomy of the client.  `outOfFuel` is a device of the bounded
recursion of the model, not an error of the program. -/
inductive TufError
  | insufficientKeys
  | noRootKeys
  | missingRemoteMetadata (name : String)
  | metaTooLarge (name : String) (size : Int)
  | wrongSize (name : String) (got want : Int)
  | downloadFailed (name : String) (cause : UtilError)
  | decodeFailed (file : String) (cause : VerifyError)
  | latestSnapshot (version : Int)
  | unknownTarget (name : String)
  | notFound (name : String)
  | verify (cause : VerifyError)
  | malformedJSON
  | invalidKeyID
  | invalidRole
  | invalidThreshold
  | outOfFuel
deriving DecidableEq, Repr

/-- Modelled from the spec: `keys.DB.AddKey`, rejecting an id that does not
match the key's fingerprint. -/
def addKey (db : KeyDB) (id : String) (k : Key) : Except TufError KeyDB :=
  if id ≠ k.id then .error .invalidKeyID
  else .ok { db with keys := setAssoc db.keys id k }

/-- Whether a role name is one of the four recognised top-level roles. -/
def validRole (name : String) : Bool :=
  name = "root" || name = "targets" || name = "snapshot" || name = "timestamp"

/-- Modelled from the spec: `keys.DB.AddRole`, rejecting unrecognised role
names and thresholds below one. -/
def addRole (db : KeyDB) (name : String) (r : RoleInfo) : Except TufError KeyDB :=
  if ¬ validRole name then .error .invalidRole
  else if r.threshold < 1 then .error .invalidThreshold
  else .ok { db with roles := setAssoc db.roles name r }

/-- Fold `addKey` over a key listing. -/
def addKeys : KeyDB → List (String × Key) → Except TufError KeyDB
  | db, [] => .ok db
  | db, (id, k) :: rest =>
    match addKey db id k with
    | .error e => .error e
    | .ok db2 => addKeys db2 rest

/-- Fold `addRole` over a role listing. -/
def addRoles : KeyDB → List (String × RoleInfo) → Except TufError KeyDB
  | db, [] => .ok db
  | db, (name, r) :: rest =>
    match addRole db name r with
    | .error e => .error e
    | .ok db2 => addRoles db2 rest

/-- Build a fresh key database from a root document's keys and roles, as
`getLocalMeta` does. -/
def buildDB (ks : List (String × Key)) (rs : List (String × RoleInfo)) :
    Except TufError KeyDB :=
  match addKeys emptyDB ks with
  | .error e => .error e
  | .ok db => addRoles db rs

/-- One file of the remote store: the bytes its stream yields, the parse
result carried with them, and the length the store reports (`-1` unknown). -/
structure RemoteFile where
  bytes : List Nat
  doc : Option SignedDoc
  size : Int
deriving DecidableEq, Repr

/-- The two stores a client is connected to.  The local store maps
`ROLE.json` names to blobs; the remote store maps paths to files. -/
structure World where
  localStore : List (String × Blob)
  remote : List (String × RemoteFile)
deriving DecidableEq, Repr

/-- The in-memory state of a `Client`: the four version fields, the targets
listing, the raw local metadata snapshot, and the key database.  `none` for
`targets`, `localMeta` and `db` models the corresponding nil Go value. -/
structure ClientState where
  rootVer : Int
  targetsVer : Int
  snapshotVer : Int
  timestampVer : Int
  targets : Option (List (String × FileMeta))
  localMeta : Option (List (String × Blob))
  db : Option KeyDB
deriving DecidableEq, Repr

/-- The key database a decode step verifies against; a nil database is read
as empty (its role lookups are all absent). -/
def dbOf (c : ClientState) : KeyDB := c.db.getD emptyDB

/-- The maximum metadata size `maxMetaSize = 50 * 1024` bytes, as an `Int`. -/
def maxMetaSize : Int := 50 * 1024

/-- The maximum metadata size as a `Nat`, for the read cap. -/
def maxMetaSizeNat : Nat := 50 * 1024

/-- `downloadMetaUnsafe`: fetch a metadata file of unknown length.  Returns
the outcome together with the number of body bytes read from the stream.
A reported size above the cap fails `metaTooLarge` before any read; otherwise
at most `maxMetaSize` bytes are read through the limit reader. -/
def downloadMetaUnsafe (w : World) (name : String) :
    Except TufError Blob × Nat :=
  match assoc w.remote name with
  | none => (.error (.missingRemoteMetadata name), 0)
  | some f =>
    if f.size > maxMetaSize then (.error (.metaTooLarge name f.size), 0)
    else
      let rb := f.bytes.take maxMetaSizeNat
      (.ok ⟨rb, if f.bytes.length ≤ maxMetaSizeNat then f.doc else none⟩, rb.length)

/-- `downloadMeta`: the pinned download.  A known reported size differing
from the pinned length fails `wrongSize` before any read; otherwise at most
`m.length` bytes are read, measured, and compared with the pinned meta. -/
def downloadMeta (w : World) (name : String) (m : FileMeta) :
    Except TufError Blob × Nat :=
  match assoc w.remote name with
  | none => (.error (.missingRemoteMetadata name), 0)
  | some f =>
    if f.size ≥ 0 ∧ f.size ≠ m.length then
      (.error (.wrongSize name f.size m.length), 0)
    else
      let rb := f.bytes.take m.length.toNat
      let meta := generateFileMeta rb
      match fileMetaEqual meta m with
      | .error e => (.error (.downloadFailed name e), rb.length)
      | .ok _ => (.ok ⟨rb, if m.length.toNat < f.bytes.length then none else f.doc⟩, rb.length)

/-- `hasMeta`: whether the raw local metadata for `name` measures equal to
the given pinned FileMeta. -/
def hasMeta (c : ClientState) (name : String) (m : FileMeta) : Bool :=
  match c.localMeta with
  | none => false
  | some lm =>
    match assoc lm name with
    | none => false
    | some b => exOk (fileMetaEqual (generateFileMeta b.bytes) m)

/-- `decodeRoot`: verify root metadata against the current database with the
stored root version as floor, then record the new root version.  The state
is returned unchanged when verification fails. -/
def decodeRoot (c : ClientState) (b : Blob) : ClientState × Except TufError Unit :=
  match signedUnmarshal b "root" c.rootVer (dbOf c) with
  | .error e => (c, .error (.decodeFailed "root.json" e))
  | .ok d => ({ c with rootVer := d.version }, .ok ())

/-- `decodeTimestamp`: verify timestamp metadata, record its version, and
return the pinned snapshot FileMeta (the zero FileMeta when absent, as a Go
map lookup yields the zero value). -/
def decodeTimestamp (c : ClientState) (b : Blob) :
    ClientState × Except TufError FileMeta :=
  match signedUnmarshal b "timestamp" c.timestampVer (dbOf c) with
  | .error e => (c, .error (.decodeFailed "timestamp.json" e))
  | .ok d =>
    ({ c with timestampVer := d.version }, .ok ((assoc d.meta "snapshot.json").getD ⟨0, []⟩))

/-- `decodeSnapshot`: verify snapshot metadata, record its version, and
return the pinned root and targets FileMeta entries. -/
def decodeSnapshot (c : ClientState) (b : Blob) :
    ClientState × Except TufError (FileMeta × FileMeta) :=
  match signedUnmarshal b "snapshot" c.snapshotVer (dbOf c) with
  | .error e => (c, .error (.decodeFailed "snapshot.json" e))
  | .ok d =>
    ({ c with snapshotVer := d.version },
     .ok ((assoc d.meta "root.json").getD ⟨0, []⟩, (assoc d.meta "targets.json").getD ⟨0, []⟩))

/-- `decodeTargets`: verify targets metadata, compute the updated-targets
diff against the current targets listing, and install the new listing. -/
def decodeTargets (c : ClientState) (b : Blob) :
    ClientState × Except TufError (List (String × FileMeta)) :=
  match signedUnmarshal b "targets" c.targetsVer (dbOf c) with
  | .error e => (c, .error (.decodeFailed "targets.json" e))
  | .ok d =>
    let old := c.targets.getD []
    let upd := d.targets.filter (fun pm =>
      match assoc old pm.1 with
      | some lmeta => ! exOk (fileMetaEqual lmeta pm.2)
      | none => true)
    ({ c with targetsVer := d.version, targets := some d.targets }, .ok upd)

/-- One optional trusted-role step of `getLocalMeta`: when local bytes for
`name` are present, verify them with `unmarshalTrusted` and return the
document; absence is not an error. -/
def glmRole (meta : List (String × Blob)) (name role : String) (db : KeyDB) :
    Except VerifyError (Option SignedDoc) :=
  match assoc meta name with
  | none => .ok none
  | some b =>
    match unmarshalTrusted b role db with
    | .error e => .error e
    | .ok d => .ok (some d)

/-- Record a trusted snapshot document's version, when one was present. -/
def applySnap (c : ClientState) : Option SignedDoc → ClientState
  | none => c
  | some d => { c with snapshotVer := d.version }

/-- Record a trusted targets document's version and listing, when present. -/
def applyTargets (c : ClientState) : Option SignedDoc → ClientState
  | none => c
  | some d => { c with targetsVer := d.version, targets := some d.targets }

/-- Record a trusted timestamp document's version, when one was present. -/
def applyTs (c : ClientState) : Option SignedDoc → ClientState
  | none => c
  | some d => { c with timestampVer := d.version }

/-- `getLocalMeta`: load and verify metadata from the local store.  Root is
decoded without verification to build a fresh key database, root is verified
against it with floor 0, the database is installed, then snapshot, targets
and timestamp are verified trusted and their version fields recorded, and
finally the raw bytes are stored as `localMeta`.  The returned state carries
the mutations committed before any error, as the Go method mutates its
receiver in place. -/
def getLocalMeta (c : ClientState) (w : World) : ClientState × Option TufError :=
  match assoc w.localStore "root.json" with
  | none => (c, some .noRootKeys)
  | some rb =>
    match rb.doc with
    | none => (c, some .malformedJSON)
    | some rootDoc =>
      match buildDB rootDoc.keys rootDoc.roles with
      | .error e => (c, some e)
      | .ok db =>
        match signedVerify rootDoc "root" 0 db with
        | .error e => (c, some (.verify e))
        | .ok _ =>
          match glmRole w.localStore "snapshot.json" "snapshot" db with
          | .error e => ({ c with db := some db }, some (.verify e))
          | .ok od =>
            match glmRole w.localStore "targets.json" "targets" db with
            | .error e => (applySnap { c with db := some db } od, some (.verify e))
            | .ok od2 =>
              match glmRole w.localStore "timestamp.json" "timestamp" db with
              | .error e =>
                (applyTargets (applySnap { c with db := some db } od) od2, some (.verify e))
              | .ok od3 =>
                ({ applyTs (applyTargets (applySnap { c with db := some db } od) od2) od3
                    with localMeta := some w.localStore }, none)

/-- Observable actions of an update run: a call to `remote.Get` for a path,
or a `SetMeta` write of a named metadata file to the local store. -/
inductive Event
  | getRemote (name : String)
  | storeWrite (name : String)
deriving DecidableEq, Repr

/-- Write the given blob to the local store under `name` (`SetMeta`). -/
def wset (w : World) (name : String) (b : Blob) : World :=
  { w with localStore := setAssoc w.localStore name b }

/-- Result of an update run: the returned value or error, the final client
state and world, and the trace of observable actions in order. -/
structure UpdOut where
  res : Except TufError (List (String × FileMeta))
  c : ClientState
  w : World
  tr : List Event
deriving Repr

/-- Prefix a trace onto an update result. -/
def withTr (o : UpdOut) (pre : List Event) : UpdOut :=
  { o with tr := pre ++ o.tr }

/-- The two entry shapes of the recursive update flow: an `update(latestRoot)`
pass, or `updateWithLatestRoot(m)`. -/
inductive UpdCall
  | upd (latestRoot : Bool)
  | withRoot (m : Option FileMeta)
deriving DecidableEq, Repr

/-- Whether an error is `signed.ErrExpired` surfaced bare, as the type
assertion in `update` tests. -/
def isExpiredErr : TufError → Bool
  | .verify .expired => true
  | _ => false

/-- `isDecodeFailedWithErr(err, signed.ErrRoleThreshold)`. -/
def isThresholdErr : TufError → Bool
  | .decodeFailed _ .roleThreshold => true
  | _ => false

/-- The result part of a download, discarding the bytes-read count. -/
def dlUnsafeB (w : World) (name : String) : Except TufError Blob :=
  (downloadMetaUnsafe w name).1

/-- The result part of a pinned download, discarding the bytes-read count. -/
def dlPinnedB (w : World) (name : String) (m : FileMeta) : Except TufError Blob :=
  (downloadMeta w name m).1

/-- The root fetch of `updateWithLatestRoot`: unsafe when no meta is pinned,
pinned otherwise. -/
def dlRoot (w : World) : Option FileMeta → Except TufError Blob
  | none => dlUnsafeB w "root.json"
  | some fm => dlPinnedB w "root.json" fm

/-- The update state machine, fuelled to bound the (in Go potentially
unbounded) mutual recursion between `update` and `updateWithLatestRoot`.
Each case follows `src/client/client.go` lines 117-224 statement by
statement; local-store writes and remote fetches are recorded in the trace. -/
def updateF : Nat → UpdCall → ClientState → World → UpdOut
  | 0, _, c, w => ⟨.error .outOfFuel, c, w, []⟩
  | n + 1, .upd latestRoot, c, w =>
    match getLocalMeta c w with
    | (c1, some e) =>
      if isExpiredErr e ∧ ¬ latestRoot then updateF n (.withRoot none) c1 w
      else ⟨.error e, c1, w, []⟩
    | (c1, none) =>
      match dlUnsafeB w "timestamp.json" with
      | .error e => ⟨.error e, c1, w, [.getRemote "timestamp.json"]⟩
      | .ok tb =>
        match decodeTimestamp c1 tb with
        | (c2, .error e) =>
          if isThresholdErr e ∧ ¬ latestRoot then
            withTr (updateF n (.withRoot none) c2 w) [.getRemote "timestamp.json"]
          else ⟨.error e, c2, w, [.getRemote "timestamp.json"]⟩
        | (c2, .ok sm) =>
          let w1 := wset w "timestamp.json" tb
          if hasMeta c2 "snapshot.json" sm then
            ⟨.error (.latestSnapshot c2.snapshotVer), c2, w1,
             [.getRemote "timestamp.json", .storeWrite "timestamp.json"]⟩
          else
            match dlPinnedB w1 "snapshot.json" sm with
            | .error e =>
              ⟨.error e, c2, w1,
               [.getRemote "timestamp.json", .storeWrite "timestamp.json",
                .getRemote "snapshot.json"]⟩
            | .ok sb =>
              match decodeSnapshot c2 sb with
              | (c3, .error e) =>
                if isThresholdErr e ∧ ¬ latestRoot then
                  withTr (updateF n (.withRoot none) c3 w1)
                    [.getRemote "timestamp.json", .storeWrite "timestamp.json",
                     .getRemote "snapshot.json"]
                else
                  ⟨.error e, c3, w1,
                   [.getRemote "timestamp.json", .storeWrite "timestamp.json",
                    .getRemote "snapshot.json"]⟩
              | (c3, .ok (rm, tm)) =>
                if ¬ hasMeta c3 "root.json" rm then
                  withTr (updateF n (.withRoot (some rm)) c3 w1)
                    [.getRemote "timestamp.json", .storeWrite "timestamp.json",
                     .getRemote "snapshot.json"]
                else if ¬ hasMeta c3 "targets.json" tm then
                  match dlPinnedB w1 "targets.json" tm with
                  | .error e =>
                    ⟨.error e, c3, w1,
                     [.getRemote "timestamp.json", .storeWrite "timestamp.json",
                      .getRemote "snapshot.json", .getRemote "targets.json"]⟩
                  | .ok gb =>
                    match decodeTargets c3 gb with
                    | (c4, .error e) =>
                      ⟨.error e, c4, w1,
                       [.getRemote "timestamp.json", .storeWrite "timestamp.json",
                        .getRemote "snapshot.json", .getRemote "targets.json"]⟩
                    | (c4, .ok upd) =>
                      ⟨.ok upd, c4, wset (wset w1 "targets.json" gb) "snapshot.json" sb,
                       [.getRemote "timestamp.json", .storeWrite "timestamp.json",
                        .getRemote "snapshot.json", .getRemote "targets.json",
                        .storeWrite "targets.json", .storeWrite "snapshot.json"]⟩
                else
                  ⟨.ok [], c3, wset w1 "snapshot.json" sb,
                   [.getRemote "timestamp.json", .storeWrite "timestamp.json",
                    .getRemote "snapshot.json", .storeWrite "snapshot.json"]⟩
  | n + 1, .withRoot m, c, w =>
    match dlRoot w m with
    | .error e => ⟨.error e, c, w, [.getRemote "root.json"]⟩
    | .ok rb =>
      match decodeRoot c rb with
      | (c1, .error e) => ⟨.error e, c1, w, [.getRemote "root.json"]⟩
      | (c1, .ok _) =>
        withTr (updateF n (.upd true) c1 (wset w "root.json" rb))
          [.getRemote "root.json", .storeWrite "root.json"]

/-- `Update()`: the top-level entry point.  The fuel 8 exceeds the depth of
any call chain the recursion can produce for the worlds considered here. -/
def update (c : ClientState) (w : World) : UpdOut :=
  updateF 8 (.upd false) c w

/-- The names written to the local store, in order, of a trace. -/
def writesOf (tr : List Event) : List String :=
  tr.filterMap (fun e => match e with
    | .storeWrite n => some n
    | .getRemote _ => none)

/-- Result of a target `Download` into a destination: the error if any, the
bytes written to the destination, whether `dest.Delete()` was invoked, the
number of stream bytes read, and the resulting client state. -/
structure DownOut where
  err : Option TufError
  written : List Nat
  deleted : Bool
  bytesRead : Nat
  c : ClientState
deriving DecidableEq, Repr

/-- The tail of `Download` once the stream is read: the read bytes have been
tee-ed into the destination, their measured meta is compared with the pinned
one, a length mismatch surfacing as `wrongSize` and any other mismatch as
`downloadFailed`. -/
def downloadCheck (name : String) (rb : List Nat) (lm : FileMeta) (c1 : ClientState) :
    DownOut :=
  match fileMetaEqual (generateFileMeta rb) lm with
  | .error .wrongLength =>
    ⟨some (.wrongSize name (generateFileMeta rb).length lm.length), rb, true, rb.length, c1⟩
  | .error e => ⟨some (.downloadFailed name e), rb, true, rb.length, c1⟩
  | .ok _ => ⟨none, rb, false, rb.length, c1⟩

/-- `Download`: stream a target into a destination under the pinned length
and hashes of the trusted targets listing.  The deferred `dest.Delete()` of
the source fires on every error return, which the model renders by each
error branch setting `deleted := true`. -/
def Download (c : ClientState) (w : World) (name : String) : DownOut :=
  match (if c.targets.isNone then getLocalMeta c w else (c, none)) with
  | (c1, some e) => ⟨some e, [], true, 0, c1⟩
  | (c1, none) =>
    match assoc (c1.targets.getD []) name with
    | none => ⟨some (.unknownTarget name), [], true, 0, c1⟩
    | some lm =>
      match assoc w.remote ("targets/" ++ name) with
      | none => ⟨some (.notFound name), [], true, 0, c1⟩
      | some f =>
        if f.size ≥ 0 ∧ f.size ≠ lm.length then
          ⟨some (.wrongSize name f.size lm.length), [], true, 0, c1⟩
        else
          downloadCheck name (f.bytes.take lm.length.toNat) lm c1

/-! Concrete worlds used by witnesses and counterexamples.  A single key
`k1` holds every role with threshold 1, so any document carrying the one
valid signature meets each role's threshold. -/

/-- The single trusted key of the concrete scenarios. -/
def k1 : Key := ⟨"k1"⟩

/-- The role entry binding `k1` with threshold 1. -/
def r1 : RoleInfo := ⟨["k1"], 1⟩

/-- A valid signature by `k1`. -/
def sigOK : Sig := ⟨"k1", true⟩

/-- All four roles bound to `k1`. -/
def roles4 : List (String × RoleInfo) :=
  [("root", r1), ("targets", r1), ("snapshot", r1), ("timestamp", r1)]

/-- The key listing of the concrete root documents. -/
def keys1 : List (String × Key) := [("k1", k1)]

/-- The key database induced by `keys1` and `roles4`. -/
def db1 : KeyDB := ⟨keys1, roles4⟩

/-- Build a concrete role document signed by `k1`, carrying `keys1` and
`roles4` (read only when the document is a root). -/
def mkDoc (role : String) (ver : Int) (expi : Bool)
    (meta tgts : List (String × FileMeta)) : SignedDoc :=
  ⟨role, ver, expi, keys1, roles4, meta, tgts, [sigOK]⟩

/-- Byte strings of the concrete metadata files, chosen pairwise distinct. -/
def bR : List Nat := [0]

/-- Bytes of the locally stored timestamp document. -/
def bT1 : List Nat := [1]

/-- Bytes of the locally stored snapshot document. -/
def bS : List Nat := [2]

/-- Bytes of the locally stored targets document. -/
def bG : List Nat := [3]

/-- Bytes of the remote timestamp document. -/
def bT2 : List Nat := [4]

/-- Bytes of the remote snapshot document. -/
def bS2 : List Nat := [5]

/-- Bytes of the remote root document of the root-refresh scenario. -/
def bR2 : List Nat := [6]

/-- Bytes of the remote timestamp document of the short-circuit scenario. -/
def bT3 : List Nat := [7]

/-- A valid, unexpired root document at version 1. -/
def docR : SignedDoc := mkDoc "root" 1 false [] []

/-- A locally stored snapshot document at version 1. -/
def docS : SignedDoc := mkDoc "snapshot" 1 false [] []

/-- A locally stored targets document at version 1 with no targets. -/
def docG : SignedDoc := mkDoc "targets" 1 false [] []

/-- A locally stored timestamp document at version 1, below the client's
in-memory timestamp version 2 of the rollback scenario. -/
def docT1 : SignedDoc := mkDoc "timestamp" 1 false [] []

/-- The remote timestamp document, pinning the remote snapshot bytes. -/
def docT2 : SignedDoc :=
  mkDoc "timestamp" 1 false [("snapshot.json", generateFileMeta bS2)] []

/-- The remote snapshot document, pinning the local root and targets bytes. -/
def docS2 : SignedDoc :=
  mkDoc "snapshot" 1 false
    [("root.json", generateFileMeta bR), ("targets.json", generateFileMeta bG)] []

/-- The world of the version-rollback scenario: a fully populated local
store whose timestamp document is at version 1, and a remote serving a
fresh snapshot pinned by the remote timestamp. -/
def w1 : World :=
  ⟨[("root.json", ⟨bR, some docR⟩), ("timestamp.json", ⟨bT1, some docT1⟩),
    ("snapshot.json", ⟨bS, some docS⟩), ("targets.json", ⟨bG, some docG⟩)],
   [("timestamp.json", ⟨bT2, some docT2, 1⟩), ("snapshot.json", ⟨bS2, some docS2, 1⟩)]⟩

/-- A client whose in-memory timestamp version 2 exceeds the version 1 of
the timestamp document in its local store. -/
def c1pre : ClientState := ⟨1, 1, 1, 2, some [], none, some db1⟩

/-- An expired root document, triggering the root-refresh recovery. -/
def docRexp : SignedDoc := mkDoc "root" 1 true [] []

/-- The unexpired remote root document of the root-refresh scenario. -/
def docR2 : SignedDoc := mkDoc "root" 1 false [] []

/-- A remote timestamp document pinning the locally stored snapshot bytes,
so the update short-circuits with `latestSnapshot`. -/
def docT3 : SignedDoc :=
  mkDoc "timestamp" 1 false [("snapshot.json", generateFileMeta bS)] []

/-- The world of the expired-local-root scenario: the local root is expired,
and the remote serves a fresh root and a timestamp pinning the local
snapshot. -/
def w8 : World :=
  ⟨[("root.json", ⟨bR, some docRexp⟩), ("snapshot.json", ⟨bS, some docS⟩)],
   [("root.json", ⟨bR2, some docR2, 1⟩), ("timestamp.json", ⟨bT3, some docT3, 1⟩)]⟩

/-- The client of the expired-local-root scenario, with a key database from
an earlier load. -/
def c8pre : ClientState := ⟨1, 1, 1, 1, some [], none, some db1⟩

/-- A root document at version 5, for the local-load scenario. -/
def docR5 : SignedDoc := mkDoc "root" 5 false [] []

/-- A local store holding only a version-5 root document. -/
def w4 : World := ⟨[("root.json", ⟨bR, some docR5⟩)], []⟩

/-- A fresh client with no state. -/
def c0 : ClientState := ⟨0, 0, 0, 0, none, none, none⟩

/-- The world of the short-circuit scenario: valid local root and snapshot,
remote timestamp pinning the local snapshot bytes. -/
def w7 : World :=
  ⟨[("root.json", ⟨bR, some docR⟩), ("snapshot.json", ⟨bS, some docS⟩)],
   [("timestamp.json", ⟨bT3, some docT3, 1⟩)]⟩

/-- The client of the short-circuit scenario. -/
def c7pre : ClientState := ⟨1, 1, 1, 1, some [], none, some db1⟩

/-- The state of the short-circuit scenario after loading local metadata. -/
def c71 : ClientState := (getLocalMeta c7pre w7).1

/-- The downloaded timestamp blob of the short-circuit scenario. -/
def tb7 : Blob := ⟨bT3, some docT3⟩

/-- The pinned snapshot meta of the short-circuit scenario. -/
def sm7 : FileMeta := generateFileMeta bS

/-- The state of the short-circuit scenario after decoding the timestamp. -/
def c72 : ClientState := (decodeTimestamp c71 tb7).1

/-- The three-byte target file of the download scenarios. -/
def fooBytes : List Nat := [10, 11, 12]

/-- The target stream with four extra trailing bytes. -/
def fooLong : List Nat := [10, 11, 12, 13, 14, 15, 16]

/-- A client trusting the target `foo.txt` with the meta of `fooBytes`. -/
def c10 : ClientState :=
  ⟨1, 1, 1, 1, some [("foo.txt", generateFileMeta fooBytes)], none, some db1⟩

/-- The download world whose remote honestly reports the 7-byte stream. -/
def w10 : World := ⟨[], [("targets/foo.txt", ⟨fooLong, none, 7⟩)]⟩

/-- The download world of the Go test: the stream has trailing bytes but the
reported size still equals the pinned length 3. -/
def w10b : World := ⟨[], [("targets/foo.txt", ⟨fooLong, none, 3⟩)]⟩

/-- The remote store of the pinned-download witness. -/
def w2w : World := ⟨[], [("a.json", ⟨[1, 2], none, 2⟩)]⟩

/-- The remote store of the bounded-download witness. -/
def w3w : World :=
  ⟨[], [("t.json", ⟨[9], none, 1⟩), ("big.json", ⟨[], none, 51201⟩)]⟩

/-- The client of the targets-diff witness, already trusting target `a`. -/
def cw9 : ClientState :=
  ⟨1, 1, 1, 1, some [("a", generateFileMeta [1])], none, some db1⟩

/-- A targets document re-listing `a` unchanged and adding `b`. -/
def d9 : SignedDoc :=
  mkDoc "targets" 1 false [] [("a", generateFileMeta [1]), ("b", generateFileMeta [2])]

/-- The blob carrying the targets document `d9`. -/
def b9 : Blob := ⟨[8], some d9⟩

/-- Whether an update-flow call is an `update` pass (rather than a root
refresh). -/
def isUpd : UpdCall → Bool
  | .upd _ => true
  | .withRoot _ => false

/-- The write languages of the update flow.  `WLang true` describes the
local-store write sequences an `update` pass can produce; `WLang false`
those of an `updateWithLatestRoot` continuation.  A pass either writes
nothing, or writes `timestamp.json` and then at most `targets.json`
followed by `snapshot.json`, or hands off (after at most one timestamp
write) to a root refresh, which writes `root.json` and restarts a pass. -/
inductive WLang : Bool → List String → Prop
  | nil (side : Bool) : WLang side []
  | ts : WLang true ["timestamp.json"]
  | tsSnap : WLang true ["timestamp.json", "snapshot.json"]
  | tsTgSnap : WLang true ["timestamp.json", "targets.json", "snapshot.json"]
  | tsThen (l : List String) : WLang false l → WLang true ("timestamp.json" :: l)
  | jump (l : List String) : WLang false l → WLang true l
  | root (l : List String) : WLang true l → WLang false ("root.json" :: l)

/-- One committed step of the update flow: a local-metadata load, or a
successfully verified download of one role optionally followed by its
persist, exactly as `update` commits them. -/
inductive CStep : ClientState × World → ClientState × World → Prop
  | glm (c : ClientState) (w : World) :
      CStep (c, w) ((getLocalMeta c w).1, w)
  | tsCommit (c c2 : ClientState) (w : World) (b : Blob) (sm : FileMeta) :
      dlUnsafeB w "timestamp.json" = .ok b →
      decodeTimestamp c b = (c2, .ok sm) →
      CStep (c, w) (c2, wset w "timestamp.json" b)
  | snapDecode (c c2 : ClientState) (w : World) (b : Blob) (mm : FileMeta × FileMeta)
      (pin : FileMeta) :
      dlPinnedB w "snapshot.json" pin = .ok b →
      decodeSnapshot c b = (c2, .ok mm) →
      CStep (c, w) (c2, w)
  | rootCommit (c c2 : ClientState) (w : World) (b : Blob) :
      ((∃ pin, dlPinnedB w "root.json" pin = .ok b) ∨ dlUnsafeB w "root.json" = .ok b) →
      decodeRoot c b = (c2, .ok ()) →
      CStep (c, w) (c2, wset w "root.json" b)
  | tgCommit (c c2 : ClientState) (w : World) (b : Blob)
      (upd : List (String × FileMeta)) (pin : FileMeta) :
      dlPinnedB w "targets.json" pin = .ok b →
      decodeTargets c b = (c2, .ok upd) →
      CStep (c, w) (c2, wset w "targets.json" b)
  | snapPersist (c : ClientState) (w : World) (b : Blob) (pin : FileMeta) :
      dlPinnedB w "snapshot.json" pin = .ok b →
      CStep (c, w) (c, wset w "snapshot.json" b)

/-- Reachability by committed steps. -/
def CommittedReach : ClientState × World → ClientState × World → Prop :=
  Relation.ReflTransGen CStep

/-- The version floor a local store document imposes, as a Boolean: either
the named document is absent or unparseable, or its version is at least `v`. -/
def docFloorB (w : World) (name : String) (v : Int) : Bool :=
  match assoc w.localStore name with
  | none => true
  | some b =>
    match b.doc with
    | none => true
    | some d => v ≤ d.version

/-- The store-floor condition of the amended monotonicity claim: the local
snapshot, targets and timestamp documents (when present and parseable) carry
versions at least the client's in-memory ones — as they do whenever the
local store holds exactly what the client last persisted. -/
def storeFloorB (c : ClientState) (w : World) : Bool :=
  docFloorB w "snapshot.json" c.snapshotVer
    && docFloorB w "targets.json" c.targetsVer
    && docFloorB w "timestamp.json" c.timestampVer

/-- Componentwise order on the four version fields. -/
def verLE (a b : ClientState) : Prop :=
  a.rootVer ≤ b.rootVer ∧ a.targetsVer ≤ b.targetsVer
    ∧ a.snapshotVer ≤ b.snapshotVer ∧ a.timestampVer ≤ b.timestampVer

/-! Helper lemmas. -/

theorem exOk_unit {ε : Type} (e : Except ε Unit) : exOk e = true ↔ e = .ok () := by
  cases e with
  | error a => simp [exOk]
  | ok a => cases a; simp [exOk]

theorem fileMetaEqual_length {a e : FileMeta} (h : fileMetaEqual a e = .ok ()) :
    a.length = e.length := by
  by_contra hne
  simp [fileMetaEqual, hne] at h

/-! Claim theorems. -/

/-- C2: the pinned download `downloadMeta` fails `wrongSize` before reading
any byte when the reported size is known and differs from the pinned length;
when the size gate passes, it succeeds iff the FileMeta measured over the
bytes actually read equals the expected FileMeta, and on success it returns
exactly those bytes. -/
theorem claim2_pinned_download (w : World) (name : String) (m : FileMeta) (f : RemoteFile)
    (hf : assoc w.remote name = some f) :
    (f.size ≥ 0 → f.size ≠ m.length →
      downloadMeta w name m = (.error (.wrongSize name f.size m.length), 0))
    ∧ (¬ (f.size ≥ 0 ∧ f.size ≠ m.length) →
       ((exOk (downloadMeta w name m).1 = true ↔
          fileMetaEqual (generateFileMeta (f.bytes.take m.length.toNat)) m = .ok ())
        ∧ ∀ b, (downloadMeta w name m).1 = .ok b →
            b.bytes = f.bytes.take m.length.toNat)) := by
  constructor
  · intro h1 h2
    simp only [downloadMeta, hf]
    rw [if_pos ⟨h1, h2⟩]
  · intro hgate
    simp only [downloadMeta, hf]
    rw [if_neg hgate]
    cases hq : fileMetaEqual (generateFileMeta (f.bytes.take m.length.toNat)) m with
    | error e =>
      refine ⟨?_, ?_⟩
      · simp [exOk, hq]
      · intro b hb
        simp [hq] at hb
    | ok a =>
      cases a
      refine ⟨?_, ?_⟩
      · simp [exOk, hq]
      · intro b hb
        simp [hq] at hb
        rw [← hb]

/-- C3: `downloadMetaUnsafe` caps metadata at `maxMetaSize = 51200` bytes: a
reported size above the cap fails `metaTooLarge` with no byte read, and a
payload within the cap (size reported honestly or unknown) is returned
exactly. -/
theorem claim3_bounded_download (w : World) (name : String) (f : RemoteFile)
    (hf : assoc w.remote name = some f) :
    maxMetaSize = 51200
    ∧ (f.size > maxMetaSize →
        downloadMetaUnsafe w name = (.error (.metaTooLarge name f.size), 0))
    ∧ ((f.size = -1 ∨ f.size = (f.bytes.length : Int)) →
        f.bytes.length ≤ maxMetaSizeNat →
        downloadMetaUnsafe w name = (.ok ⟨f.bytes, f.doc⟩, f.bytes.length)) := by
  refine ⟨rfl, ?_, ?_⟩
  · intro h
    simp only [downloadMetaUnsafe, hf]
    rw [if_pos h]
  · intro hsz hlen
    simp only [downloadMetaUnsafe, hf]
    have hgate : ¬ f.size > maxMetaSize := by
      rcases hsz with h | h
      · rw [h]; decide
      · rw [h]
        simp only [maxMetaSize, maxMetaSizeNat] at hlen ⊢
        omega
    rw [if_neg hgate]
    have htake : f.bytes.take maxMetaSizeNat = f.bytes := List.take_of_length_le hlen
    rw [if_pos hlen, htake]

/-- C3 witness: a one-byte payload is returned exactly, and a remote
reporting 51201 bytes is rejected with `metaTooLarge` and no byte read. -/
theorem claim3_witness :
    downloadMetaUnsafe w3w "t.json" = (.ok ⟨[9], none⟩, 1)
    ∧ downloadMetaUnsafe w3w "big.json" = (.error (.metaTooLarge "big.json" 51201), 0) := by
  constructor
  · exact (claim3_bounded_download w3w "t.json" ⟨[9], none, 1⟩ rfl).2.2
      (by right; rfl) (by decide)
  · exact (claim3_bounded_download w3w "big.json" ⟨[], none, 51201⟩ rfl).2.1 (by decide)

/-- C2 witness: a known wrong reported size fails `wrongSize` with no byte
read, and a payload measuring equal to the pinned meta succeeds. -/
theorem claim2_witness :
    downloadMeta w2w "a.json" ⟨5, [("sha512", 0)]⟩ = (.error (.wrongSize "a.json" 2 5), 0)
    ∧ exOk (downloadMeta w2w "a.json" (generateFileMeta [1, 2])).1 = true := by
  constructor
  · exact (claim2_pinned_download w2w "a.json" ⟨5, [("sha512", 0)]⟩ ⟨[1, 2], none, 2⟩
      rfl).1 (by decide) (by decide)
  · exact ((claim2_pinned_download w2w "a.json" (generateFileMeta [1, 2]) ⟨[1, 2], none, 2⟩
      rfl).2 (by decide)).1.mpr (by decide)

/-- C6: on every error return of `Download` the destination has been
deleted, and on a nil return it has not. -/
theorem claim6_sink_cleanup (c : ClientState) (w : World) (name : String) :
    (Download c w name).deleted = (Download c w name).err.isSome := by
  unfold Download downloadCheck
  repeat first
  | rfl
  | split

/-- C9: the updated-targets diff of `decodeTargets` contains an entry iff
the new targets document lists it and the previous mapping has no entry for
its path or one whose FileMeta differs; re-listing only unchanged targets
yields the empty diff. -/
theorem claim9_targets_diff (c : ClientState) (b : Blob) (d : SignedDoc)
    (c2 : ClientState) (upd : List (String × FileMeta))
    (hd : b.doc = some d)
    (h : decodeTargets c b = (c2, .ok upd)) :
    (∀ p m, (p, m) ∈ upd ↔ ((p, m) ∈ d.targets ∧
      match assoc (c.targets.getD []) p with
      | some lmeta => ¬ fileMetaEqual lmeta m = .ok ()
      | none => True))
    ∧ ((∀ pm ∈ d.targets, ∃ lmeta, assoc (c.targets.getD []) pm.1 = some lmeta ∧
          fileMetaEqual lmeta pm.2 = .ok ()) → upd = []) := by
  cases hu : signedUnmarshal b "targets" c.targetsVer (dbOf c) with
  | error e =>
    simp [decodeTargets, hu] at h
  | ok dd =>
    have hdd : dd = d := by
      simp only [signedUnmarshal, hd] at hu
      cases hv : signedVerify d "targets" c.targetsVer (dbOf c) with
      | error e => rw [hv] at hu; cases hu
      | ok a => rw [hv] at hu; exact (Except.ok.inj hu).symm
    subst hdd
    simp only [decodeTargets, hu, Prod.mk.injEq, Except.ok.injEq] at h
    obtain ⟨hc2, hupd⟩ := h
    constructor
    · intro p m
      rw [← hupd, List.mem_filter]
      cases hl : assoc (c.targets.getD []) p with
      | none => simp [hl]
      | some lmeta => simp [hl, ← exOk_unit]
    · intro hall
      rw [← hupd, List.filter_eq_nil_iff]
      intro pm hpm
      obtain ⟨lmeta, hl, hfme⟩ := hall pm hpm
      simp [hl, hfme, exOk]

/-- C9 witness: re-listing target `a` with an unchanged FileMeta keeps it out
of the diff, while the freshly added `b` is in it. -/
theorem claim9_witness :
    ("b", generateFileMeta [2]) ∈ [("b", generateFileMeta [2])]
    ∧ ¬ ("a", generateFileMeta [1]) ∈ [("b", generateFileMeta [2])] := by
  have h := claim9_targets_diff cw9 b9 d9
    ((decodeTargets cw9 b9).1) [("b", generateFileMeta [2])] rfl (by decide)
  constructor
  · exact (h.1 "b" (generateFileMeta [2])).mpr ⟨by decide, trivial⟩
  · intro hc
    have h2 := (h.1 "a" (generateFileMeta [1])).mp hc
    exact h2.2 (by decide)

/-- C4 counterexample: `getLocalMeta` succeeds on a local store whose root
document carries version 5, yet the resulting `rootVer` is left at 0 — the
claim that it "sets root_ver to that root document's version" fails. -/
theorem claim4_counterexample :
    assoc w4.localStore "root.json" = some ⟨bR, some docR5⟩
    ∧ docR5.version = 5
    ∧ (getLocalMeta c0 w4).2 = none
    ∧ (getLocalMeta c0 w4).1.rootVer = 0
    ∧ c0.rootVer = 0 := by
  refine ⟨by decide, by decide, by decide, by decide, by decide⟩

theorem applySnap_db (c : ClientState) (od : Option SignedDoc) :
    (applySnap c od).db = c.db := by cases od <;> rfl

theorem applyTargets_db (c : ClientState) (od : Option SignedDoc) :
    (applyTargets c od).db = c.db := by cases od <;> rfl

theorem applyTs_db (c : ClientState) (od : Option SignedDoc) :
    (applyTs c od).db = c.db := by cases od <;> rfl

theorem applySnap_rootVer (c : ClientState) (od : Option SignedDoc) :
    (applySnap c od).rootVer = c.rootVer := by cases od <;> rfl

theorem applyTargets_rootVer (c : ClientState) (od : Option SignedDoc) :
    (applyTargets c od).rootVer = c.rootVer := by cases od <;> rfl

theorem applyTs_rootVer (c : ClientState) (od : Option SignedDoc) :
    (applyTs c od).rootVer = c.rootVer := by cases od <;> rfl

/-- C4 amended: when `getLocalMeta` finds a parseable root whose induced key
database verifies it, the returned state installs that database; `rootVer`
is left unchanged (it is only ever set by `decodeRoot`), against the claim's
"sets root_ver to that root document's version".  When root verification
fails with `Expired`, the error is returned with the state — in particular
the installed database and `rootVer` — unchanged. -/
theorem claim4_local_load (c : ClientState) (w : World) (b : Blob) (d : SignedDoc)
    (db : KeyDB) (hb : assoc w.localStore "root.json" = some b) (hd : b.doc = some d)
    (hdb : buildDB d.keys d.roles = .ok db) :
    (signedVerify d "root" 0 db = .ok () →
      (getLocalMeta c w).1.db = some db ∧ (getLocalMeta c w).1.rootVer = c.rootVer)
    ∧ (signedVerify d "root" 0 db = .error .expired →
      getLocalMeta c w = (c, some (.verify .expired))) := by
  constructor
  · intro hv
    simp only [getLocalMeta, hb, hd, hdb, hv]
    constructor
    · split
      · rfl
      · split
        · simp [applySnap_db]
        · split
          · simp [applyTargets_db, applySnap_db]
          · simp [applyTs_db, applyTargets_db, applySnap_db]
    · split
      · rfl
      · split
        · simp [applySnap_rootVer]
        · split
          · simp [applyTargets_rootVer, applySnap_rootVer]
          · simp [applyTs_rootVer, applyTargets_rootVer, applySnap_rootVer]
  · intro hv
    simp only [getLocalMeta, hb, hd, hdb, hv]

/-- C4 witness: on the version-5 store the database `db1` is installed with
`rootVer` unchanged, and on the expired-root store the `Expired` error is
returned with the state untouched. -/
theorem claim4_witness :
    ((getLocalMeta c0 w4).1.db = some db1 ∧ (getLocalMeta c0 w4).1.rootVer = c0.rootVer)
    ∧ getLocalMeta c8pre w8 = (c8pre, some (.verify .expired)) := by
  constructor
  · exact (claim4_local_load c0 w4 ⟨bR, some docR5⟩ docR5 db1 rfl rfl (by decide)).1
      (by decide)
  · exact (claim4_local_load c8pre w8 ⟨bR, some docRexp⟩ docRexp db1 rfl rfl
      (by decide)).2 (by decide)

/-- C7: whenever the freshly verified timestamp's pinned snapshot FileMeta
matches the locally stored snapshot bytes, the `update` pass returns
`latestSnapshot` with the current snapshot version, having fetched and
written only `timestamp.json` — no snapshot and no targets download. -/
theorem claim7_short_circuit (n : Nat) (lr : Bool) (c c1 c2 : ClientState) (w : World)
    (tb : Blob) (sm : FileMeta)
    (hglm : getLocalMeta c w = (c1, none))
    (hdl : dlUnsafeB w "timestamp.json" = .ok tb)
    (hdec : decodeTimestamp c1 tb = (c2, .ok sm))
    (hhas : hasMeta c2 "snapshot.json" sm = true) :
    updateF (n + 1) (.upd lr) c w =
      ⟨.error (.latestSnapshot c2.snapshotVer), c2, wset w "timestamp.json" tb,
       [.getRemote "timestamp.json", .storeWrite "timestamp.json"]⟩ := by
  simp only [updateF, hglm, hdl, hdec, hhas, if_true]

/-- C7 witness: in the short-circuit world the update returns
`latestSnapshot 1` and writes only `timestamp.json`. -/
theorem claim7_witness :
    (updateF 5 (.upd false) c7pre w7).res = .error (.latestSnapshot 1)
    ∧ writesOf (updateF 5 (.upd false) c7pre w7).tr = ["timestamp.json"] := by
  have h := claim7_short_circuit 4 false c7pre c71 c72 w7 tb7 sm7 (by decide) (by decide)
    (by decide) (by decide)
  rw [h]
  exact ⟨by decide, by decide⟩

/-- C10 counterexample: with the remote honestly reporting the 7-byte stream
whose first 3 bytes carry exactly the pinned length and hashes, `Download`
fails with `wrongSize` and deletes the destination, against the claim's
unconditional success. -/
theorem claim10_counterexample :
    fileMetaEqual (generateFileMeta (fooLong.take 3)) (generateFileMeta fooBytes) = .ok ()
    ∧ (Download c10 w10 "foo.txt").err = some (.wrongSize "foo.txt" 7 3)
    ∧ (Download c10 w10 "foo.txt").deleted = true := by
  refine ⟨by decide, by decide, by decide⟩

/-- C10 amended: when the target is trusted, the reported size is unknown or
equals the pinned length, and the first pinned-length bytes of the stream
measure equal to the pinned FileMeta, `Download` succeeds, writes exactly
those bytes, does not delete, and reads no byte beyond the pinned length. -/
theorem claim10_download_exact (c : ClientState) (w : World) (name : String)
    (ts : List (String × FileMeta)) (lm : FileMeta) (f : RemoteFile)
    (hts : c.targets = some ts) (hlm : assoc ts name = some lm)
    (hf : assoc w.remote ("targets/" ++ name) = some f)
    (hsize : ¬ (f.size ≥ 0 ∧ f.size ≠ lm.length))
    (hmeta : fileMetaEqual (generateFileMeta (f.bytes.take lm.length.toNat)) lm = .ok ()) :
    Download c w name = ⟨none, f.bytes.take lm.length.toNat, false,
      (f.bytes.take lm.length.toNat).length, c⟩
    ∧ ((f.bytes.take lm.length.toNat).length : Int) = lm.length
    ∧ (f.bytes.take lm.length.toNat).length ≤ lm.length.toNat := by
  have hlen := fileMetaEqual_length hmeta
  refine ⟨?_, ?_, ?_⟩
  · simp only [Download, hts, Option.isNone_some, Bool.false_eq_true, if_false,
      Option.getD_some, hlm, hf]
    rw [if_neg hsize]
    simp only [downloadCheck, hmeta]
  · exact hlen
  · rw [List.length_take]
    exact min_le_left _ _

/-- C10 witness: in the Go test scenario (reported size equal to the pinned
length, stream with trailing bytes) the download returns exactly the three
pinned bytes, reads no more, and does not delete. -/
theorem claim10_witness :
    Download c10 w10b "foo.txt" = ⟨none, [10, 11, 12], false, 3, c10⟩ := by
  have h := (claim10_download_exact c10 w10b "foo.txt"
    [("foo.txt", generateFileMeta fooBytes)] (generateFileMeta fooBytes)
    ⟨fooLong, none, 3⟩ rfl rfl rfl (by decide) (by decide)).1
  exact h

theorem writesOf_nil : writesOf [] = [] := rfl

theorem writesOf_get (s : String) (l : List Event) :
    writesOf (.getRemote s :: l) = writesOf l := rfl

theorem writesOf_write (s : String) (l : List Event) :
    writesOf (.storeWrite s :: l) = s :: writesOf l := rfl

theorem writesOf_append (a b : List Event) :
    writesOf (a ++ b) = writesOf a ++ writesOf b := by
  simp [writesOf]

/-- Every run of the update flow produces a write sequence in the write
language of its entry shape. -/
theorem updWrites (n : Nat) : ∀ (call : UpdCall) (c : ClientState) (w : World),
    WLang (isUpd call) (writesOf (updateF n call c w).tr) := by
  induction n with
  | zero => intro call c w; cases call <;> exact WLang.nil _
  | succ n ih =>
    intro call c w
    cases call with
    | upd latestRoot =>
      simp only [updateF, isUpd]
      split
      · -- getLocalMeta failed
        split
        · exact WLang.jump _ (ih (.withRoot none) _ _)
        · exact WLang.nil _
      · -- getLocalMeta succeeded
        split
        · exact WLang.nil _
        · split
          · -- decodeTimestamp failed
            split
            · simp only [withTr, writesOf_append, writesOf_get, writesOf_nil,
                List.nil_append]
              exact WLang.jump _ (ih (.withRoot none) _ _)
            · exact WLang.nil _
          · split
            · -- latest snapshot
              exact WLang.ts
            · split
              · exact WLang.ts
              · split
                · -- decodeSnapshot failed
                  split
                  · simp only [withTr, writesOf_append, writesOf_get, writesOf_write,
                      writesOf_nil, List.nil_append]
                    exact WLang.tsThen _ (ih (.withRoot none) _ _)
                  · exact WLang.ts
                · split
                  · -- missing local root: hand off to the root refresh
                    simp only [withTr, writesOf_append, writesOf_get, writesOf_write,
                      writesOf_nil, List.nil_append]
                    exact WLang.tsThen _ (ih (.withRoot _) _ _)
                  · split
                    · split
                      · exact WLang.ts
                      · split
                        · exact WLang.ts
                        · exact WLang.tsTgSnap
                    · exact WLang.tsSnap
    | withRoot m =>
      simp only [updateF, isUpd]
      split
      · exact WLang.nil _
      · split
        · exact WLang.nil _
        · simp only [withTr, writesOf_append, writesOf_get, writesOf_write,
            writesOf_nil, List.nil_append]
          exact WLang.root _ (ih (.upd true) _ _)

theorem wlang_snap_last (side : Bool) (l : List String) (h : WLang side l) :
    ∀ l1 l2, l = l1 ++ "snapshot.json" :: l2 → l2 = [] := by
  induction h with
  | nil s =>
    intro l1 l2 he
    exact absurd he.symm (by simp)
  | ts =>
    intro l1 l2 he
    rcases l1 with _ | ⟨a, l1⟩ <;> simp_all
  | tsSnap =>
    intro l1 l2 he
    rcases l1 with _ | ⟨a, _ | ⟨b, l1⟩⟩ <;> simp_all
  | tsTgSnap =>
    intro l1 l2 he
    rcases l1 with _ | ⟨a, _ | ⟨b, _ | ⟨d, l1⟩⟩⟩ <;> simp_all
  | tsThen l hl ih =>
    intro l1 l2 he
    rcases l1 with _ | ⟨a, l1⟩
    · simp at he
    · simp only [List.cons_append, List.cons.injEq] at he
      exact ih l1 l2 he.2
  | jump l hl ih =>
    intro l1 l2 he
    exact ih l1 l2 he
  | root l hl ih =>
    intro l1 l2 he
    rcases l1 with _ | ⟨a, l1⟩
    · simp at he
    · simp only [List.cons_append, List.cons.injEq] at he
      exact ih l1 l2 he.2

theorem wlang_tg_then_snap (side : Bool) (l : List String) (h : WLang side l) :
    ∀ l1 l2, l = l1 ++ "targets.json" :: l2 → l2 = ["snapshot.json"] := by
  induction h with
  | nil s =>
    intro l1 l2 he
    exact absurd he.symm (by simp)
  | ts =>
    intro l1 l2 he
    rcases l1 with _ | ⟨a, l1⟩ <;> simp_all
  | tsSnap =>
    intro l1 l2 he
    rcases l1 with _ | ⟨a, _ | ⟨b, l1⟩⟩ <;> simp_all
  | tsTgSnap =>
    intro l1 l2 he
    rcases l1 with _ | ⟨a, _ | ⟨b, _ | ⟨d, l1⟩⟩⟩ <;> simp_all
  | tsThen l hl ih =>
    intro l1 l2 he
    rcases l1 with _ | ⟨a, l1⟩
    · simp at he
    · simp only [List.cons_append, List.cons.injEq] at he
      exact ih l1 l2 he.2
  | jump l hl ih =>
    intro l1 l2 he
    exact ih l1 l2 he
  | root l hl ih =>
    intro l1 l2 he
    rcases l1 with _ | ⟨a, l1⟩
    · simp at he
    · simp only [List.cons_append, List.cons.injEq] at he
      exact ih l1 l2 he.2

theorem wlang_tg_after_ts (side : Bool) (l : List String) (h : WLang side l) :
    ∀ l1 l2, l = l1 ++ "targets.json" :: l2 → "timestamp.json" ∈ l1 := by
  induction h with
  | nil s =>
    intro l1 l2 he
    exact absurd he.symm (by simp)
  | ts =>
    intro l1 l2 he
    rcases l1 with _ | ⟨a, l1⟩ <;> simp_all
  | tsSnap =>
    intro l1 l2 he
    rcases l1 with _ | ⟨a, _ | ⟨b, l1⟩⟩ <;> simp_all
  | tsTgSnap =>
    intro l1 l2 he
    rcases l1 with _ | ⟨a, _ | ⟨b, _ | ⟨d, l1⟩⟩⟩ <;> simp_all
  | tsThen l hl ih =>
    intro l1 l2 he
    rcases l1 with _ | ⟨a, l1⟩
    · simp at he
    · simp only [List.cons_append, List.cons.injEq] at he
      rcases he with ⟨ha, he⟩
      subst ha
      simp
  | jump l hl ih =>
    intro l1 l2 he
    exact ih l1 l2 he
  | root l hl ih =>
    intro l1 l2 he
    rcases l1 with _ | ⟨a, l1⟩
    · simp at he
    · simp only [List.cons_append, List.cons.injEq] at he
      exact List.mem_cons_of_mem _ (ih l1 l2 he.2)

theorem wlang_snap_count (side : Bool) (l : List String) (h : WLang side l) :
    l.count "snapshot.json" ≤ 1 := by
  induction h with
  | nil s => simp
  | ts => simp [List.count_cons]
  | tsSnap => simp [List.count_cons]
  | tsTgSnap => simp [List.count_cons]
  | tsThen l hl ih => simpa [List.count_cons] using ih
  | jump l hl ih => exact ih
  | root l hl ih => simpa [List.count_cons] using ih

/-- C8 counterexample: in the expired-local-root world, the top-level
`Update()` writes `root.json` first and `timestamp.json` only afterwards —
against the claimed "timestamp.json first" and "no root.json write precedes
a timestamp.json write". -/
theorem claim8_counterexample :
    writesOf (update c8pre w8).tr = ["root.json", "timestamp.json"]
    ∧ (writesOf (update c8pre w8).tr).head? ≠ some "timestamp.json" := by
  refine ⟨by decide, by decide⟩

theorem decodeRoot_err (c : ClientState) (b : Blob) (c2 : ClientState) (e : TufError)
    (h : decodeRoot c b = (c2, .error e)) : c2 = c := by
  unfold decodeRoot at h
  cases hu : signedUnmarshal b "root" c.rootVer (dbOf c) with
  | error e2 =>
    simp only [hu] at h
    exact ((Prod.mk.injEq _ _ _ _).mp h).1.symm
  | ok d =>
    simp only [hu] at h
    exact absurd ((Prod.mk.injEq _ _ _ _).mp h).2 (by simp)

theorem decodeTimestamp_err (c : ClientState) (b : Blob) (c2 : ClientState) (e : TufError)
    (h : decodeTimestamp c b = (c2, .error e)) : c2 = c := by
  unfold decodeTimestamp at h
  cases hu : signedUnmarshal b "timestamp" c.timestampVer (dbOf c) with
  | error e2 =>
    simp only [hu] at h
    exact ((Prod.mk.injEq _ _ _ _).mp h).1.symm
  | ok d =>
    simp only [hu] at h
    exact absurd ((Prod.mk.injEq _ _ _ _).mp h).2 (by simp)

theorem decodeSnapshot_err (c : ClientState) (b : Blob) (c2 : ClientState) (e : TufError)
    (h : decodeSnapshot c b = (c2, .error e)) : c2 = c := by
  unfold decodeSnapshot at h
  cases hu : signedUnmarshal b "snapshot" c.snapshotVer (dbOf c) with
  | error e2 =>
    simp only [hu] at h
    exact ((Prod.mk.injEq _ _ _ _).mp h).1.symm
  | ok d =>
    simp only [hu] at h
    exact absurd ((Prod.mk.injEq _ _ _ _).mp h).2 (by simp)

theorem decodeTargets_err (c : ClientState) (b : Blob) (c2 : ClientState) (e : TufError)
    (h : decodeTargets c b = (c2, .error e)) : c2 = c := by
  unfold decodeTargets at h
  cases hu : signedUnmarshal b "targets" c.targetsVer (dbOf c) with
  | error e2 =>
    simp only [hu] at h
    exact ((Prod.mk.injEq _ _ _ _).mp h).1.symm
  | ok d =>
    simp only [hu] at h
    exact absurd ((Prod.mk.injEq _ _ _ _).mp h).2 (by simp)

theorem dlRoot_ok (w : World) (m : Option FileMeta) (rb : Blob)
    (h : dlRoot w m = .ok rb) :
    (∃ pin, dlPinnedB w "root.json" pin = .ok rb) ∨ dlUnsafeB w "root.json" = .ok rb := by
  cases m with
  | none => exact Or.inr h
  | some fm => exact Or.inl ⟨fm, h⟩

/-- C8 amended: the write sequence of a top-level `Update()` lies in the
write language `WLang true` — a chain of passes, each writing
`timestamp.json` and then either stopping, handing off to a root refresh
that writes `root.json` (so a root write may precede a later pass's
timestamp write, and on the expired-local-root path may come first), or
finishing with an optional `targets.json` write followed by the final
`snapshot.json` write.  Consequently `snapshot.json` is written at most
once and only as the last write, any `targets.json` write is immediately
followed by that final snapshot write, and any `targets.json` write is
preceded by a `timestamp.json` write. -/
theorem claim8_write_order (c : ClientState) (w : World) :
    WLang true (writesOf (update c w).tr)
    ∧ (writesOf (update c w).tr).count "snapshot.json" ≤ 1
    ∧ (∀ l1 l2, writesOf (update c w).tr = l1 ++ "snapshot.json" :: l2 → l2 = [])
    ∧ (∀ l1 l2, writesOf (update c w).tr = l1 ++ "targets.json" :: l2 →
        l2 = ["snapshot.json"] ∧ "timestamp.json" ∈ l1) := by
  have h := updWrites 8 (.upd false) c w
  exact ⟨h, wlang_snap_count _ _ h, wlang_snap_last _ _ h,
    fun l1 l2 he => ⟨wlang_tg_then_snap _ _ h l1 l2 he, wlang_tg_after_ts _ _ h l1 l2 he⟩⟩

/-- C5: whatever an update run returns — in particular when it surfaces an
error — the client state and local store it leaves behind are reachable from
the initial ones by whole committed steps only: local-metadata loads and
successfully verified downloads with their persists.  A failing decode or
download mutates nothing of its own. -/
theorem claim5_committed_state (n : Nat) :
    ∀ (call : UpdCall) (c : ClientState) (w : World),
      CommittedReach (c, w) ((updateF n call c w).c, (updateF n call c w).w) := by
  induction n with
  | zero => intro call c w; exact Relation.ReflTransGen.refl
  | succ n ih =>
    intro call c w
    cases call with
    | upd latestRoot =>
      rcases hglm : getLocalMeta c w with ⟨c1, oe⟩
      have step1 : CStep (c, w) (c1, w) := by
        have h0 := CStep.glm c w
        rwa [hglm] at h0
      cases oe with
      | some e =>
        simp only [updateF, hglm]
        split
        · exact Relation.ReflTransGen.trans (Relation.ReflTransGen.single step1)
            (ih (.withRoot none) c1 w)
        · exact Relation.ReflTransGen.single step1
      | none =>
        simp only [updateF, hglm]
        rcases hdl : dlUnsafeB w "timestamp.json" with e | tb
        · exact Relation.ReflTransGen.single step1
        · rcases hdec : decodeTimestamp c1 tb with ⟨c2, rts⟩
          cases rts with
          | error e =>
            have hc2 : c2 = c1 := decodeTimestamp_err _ _ _ _ hdec
            subst hc2
            simp only [hdec]
            split
            · exact Relation.ReflTransGen.trans (Relation.ReflTransGen.single step1)
                (ih (.withRoot none) c2 w)
            · exact Relation.ReflTransGen.single step1
          | ok sm =>
            have step2 : CStep (c1, w) (c2, wset w "timestamp.json" tb) :=
              CStep.tsCommit c1 c2 w tb sm hdl hdec
            have reach2 : CommittedReach (c, w) (c2, wset w "timestamp.json" tb) :=
              Relation.ReflTransGen.trans (Relation.ReflTransGen.single step1)
                (Relation.ReflTransGen.single step2)
            simp only [hdec]
            split
            · exact reach2
            · rcases hsdl : dlPinnedB (wset w "timestamp.json" tb) "snapshot.json" sm
                with e | sb
              · exact reach2
              · rcases hsdec : decodeSnapshot c2 sb with ⟨c3, rsn⟩
                cases rsn with
                | error e =>
                  have hc3 : c3 = c2 := decodeSnapshot_err _ _ _ _ hsdec
                  subst hc3
                  simp only [hsdec]
                  split
                  · exact Relation.ReflTransGen.trans reach2 (ih (.withRoot none) c3 _)
                  · exact reach2
                | ok mm =>
                  have step3 : CStep (c2, wset w "timestamp.json" tb)
                      (c3, wset w "timestamp.json" tb) :=
                    CStep.snapDecode c2 c3 _ sb mm sm hsdl hsdec
                  have reach3 : CommittedReach (c, w) (c3, wset w "timestamp.json" tb) :=
                    Relation.ReflTransGen.trans reach2 (Relation.ReflTransGen.single step3)
                  obtain ⟨rm, tm⟩ := mm
                  simp only [hsdec]
                  split
                  · exact Relation.ReflTransGen.trans reach3 (ih (.withRoot (some rm)) c3 _)
                  · split
                    · rcases hgdl : dlPinnedB (wset w "timestamp.json" tb) "targets.json" tm
                        with e | gb
                      · exact reach3
                      · rcases hgdec : decodeTargets c3 gb with ⟨c4, rtg⟩
                        cases rtg with
                        | error e =>
                          have hc4 : c4 = c3 := decodeTargets_err _ _ _ _ hgdec
                          subst hc4
                          simp only [hgdec]
                          exact reach3
                        | ok upd =>
                          have step4 : CStep (c3, wset w "timestamp.json" tb)
                              (c4, wset (wset w "timestamp.json" tb) "targets.json" gb) :=
                            CStep.tgCommit c3 c4 _ gb upd tm hgdl hgdec
                          have step5 : CStep
                              (c4, wset (wset w "timestamp.json" tb) "targets.json" gb)
                              (c4, wset (wset (wset w "timestamp.json" tb)
                                "targets.json" gb) "snapshot.json" sb) :=
                            CStep.snapPersist c4 _ sb sm hsdl
                          simp only [hgdec]
                          exact Relation.ReflTransGen.trans reach3
                            (Relation.ReflTransGen.trans
                              (Relation.ReflTransGen.single step4)
                              (Relation.ReflTransGen.single step5))
                    · have step4 : CStep (c3, wset w "timestamp.json" tb)
                          (c3, wset (wset w "timestamp.json" tb) "snapshot.json" sb) :=
                        CStep.snapPersist c3 _ sb sm hsdl
                      exact Relation.ReflTransGen.trans reach3
                        (Relation.ReflTransGen.single step4)
    | withRoot m =>
      simp only [updateF]
      rcases hdl : dlRoot w m with e | rb
      · exact Relation.ReflTransGen.refl
      · rcases hdec : decodeRoot c rb with ⟨c1, rr⟩
        cases rr with
        | error e =>
          have hc1 : c1 = c := decodeRoot_err _ _ _ _ hdec
          subst hc1
          simp only [hdec]
          exact Relation.ReflTransGen.refl
        | ok u =>
          cases u
          have step1 : CStep (c, w) (c1, wset w "root.json" rb) :=
            CStep.rootCommit c c1 w rb (dlRoot_ok w m rb hdl) hdec
          simp only [hdec]
          exact Relation.ReflTransGen.trans (Relation.ReflTransGen.single step1)
            (ih (.upd true) c1 (wset w "root.json" rb))

theorem assoc_setAssoc {α : Type} (l : List (String × α)) (k k2 : String) (v : α) :
    assoc (setAssoc l k v) k2 = if k = k2 then some v else assoc l k2 := by
  induction l with
  | nil =>
    by_cases h : k = k2 <;> simp [setAssoc, assoc, h]
  | cons p rest ih =>
    by_cases h1 : p.1 = k
    · by_cases h2 : k = k2
      · simp [setAssoc, assoc, h1, h2]
      · simp [setAssoc, assoc, h1, h2, fun hc => h2 (h1 ▸ hc)]
    · by_cases h3 : p.1 = k2
      · have h2 : ¬ k = k2 := fun hc => h1 (h3.trans hc.symm)
        simp only [setAssoc, if_neg h1, assoc, if_pos h3, if_neg h2]
      · simp only [setAssoc, if_neg h1, assoc, if_neg h3, ih]

theorem docFloorB_wset (w : World) (n name : String) (b : Blob) (v : Int) :
    docFloorB (wset w n b) name v =
      if n = name then
        (match b.doc with
         | none => true
         | some d => decide (v ≤ d.version))
      else docFloorB w name v := by
  simp only [docFloorB, wset, assoc_setAssoc]
  by_cases h : n = name <;> simp [h]

theorem storeFloorB_parts (c0 : ClientState) (w : World) :
    storeFloorB c0 w = true ↔
      docFloorB w "snapshot.json" c0.snapshotVer = true
      ∧ docFloorB w "targets.json" c0.targetsVer = true
      ∧ docFloorB w "timestamp.json" c0.timestampVer = true := by
  simp [storeFloorB, Bool.and_eq_true, and_assoc]

theorem storeFloorB_wset_root (c0 : ClientState) (w : World) (b : Blob)
    (h : storeFloorB c0 w = true) :
    storeFloorB c0 (wset w "root.json" b) = true := by
  rw [storeFloorB_parts] at h ⊢
  refine ⟨?_, ?_, ?_⟩ <;> rw [docFloorB_wset]
  · simpa using h.1
  · simpa using h.2.1
  · simpa using h.2.2

theorem storeFloorB_wset_ts (c0 : ClientState) (w : World) (b : Blob) (d : SignedDoc)
    (h : storeFloorB c0 w = true) (hdoc : b.doc = some d)
    (hv : c0.timestampVer ≤ d.version) :
    storeFloorB c0 (wset w "timestamp.json" b) = true := by
  rw [storeFloorB_parts] at h ⊢
  refine ⟨?_, ?_, ?_⟩ <;> rw [docFloorB_wset]
  · simpa using h.1
  · simpa using h.2.1
  · simp [hdoc, hv]

theorem storeFloorB_wset_tg (c0 : ClientState) (w : World) (b : Blob) (d : SignedDoc)
    (h : storeFloorB c0 w = true) (hdoc : b.doc = some d)
    (hv : c0.targetsVer ≤ d.version) :
    storeFloorB c0 (wset w "targets.json" b) = true := by
  rw [storeFloorB_parts] at h ⊢
  refine ⟨?_, ?_, ?_⟩ <;> rw [docFloorB_wset]
  · simpa using h.1
  · simp [hdoc, hv]
  · simpa using h.2.2

theorem storeFloorB_wset_snap (c0 : ClientState) (w : World) (b : Blob) (d : SignedDoc)
    (h : storeFloorB c0 w = true) (hdoc : b.doc = some d)
    (hv : c0.snapshotVer ≤ d.version) :
    storeFloorB c0 (wset w "snapshot.json" b) = true := by
  rw [storeFloorB_parts] at h ⊢
  refine ⟨?_, ?_, ?_⟩ <;> rw [docFloorB_wset]
  · simp [hdoc, hv]
  · simpa using h.2.1
  · simpa using h.2.2

theorem verLE_refl (c : ClientState) : verLE c c :=
  ⟨le_refl _, le_refl _, le_refl _, le_refl _⟩

theorem verLE_trans {a b c : ClientState} (h1 : verLE a b) (h2 : verLE b c) : verLE a c :=
  ⟨le_trans h1.1 h2.1, le_trans h1.2.1 h2.2.1, le_trans h1.2.2.1 h2.2.2.1,
   le_trans h1.2.2.2 h2.2.2.2⟩

theorem signedUnmarshal_ok_version (b : Blob) (role : String) (mv : Int) (db : KeyDB)
    (d : SignedDoc) (h : signedUnmarshal b role mv db = .ok d) :
    mv ≤ d.version ∧ b.doc = some d := by
  unfold signedUnmarshal at h
  cases hb : b.doc with
  | none => simp [hb] at h
  | some d0 =>
    simp only [hb] at h
    cases hv : signedVerify d0 role mv db with
    | error e => simp [hv] at h
    | ok u =>
      simp only [hv, Except.ok.injEq] at h
      subst h
      refine ⟨?_, rfl⟩
      unfold signedVerify at hv
      cases ha : verifyAux d0 role db with
      | error e => simp [ha] at hv
      | ok u2 =>
        simp only [ha] at hv
        by_contra hlt
        push_neg at hlt
        rw [if_pos hlt] at hv
        cases hv

theorem signedUnmarshal_low (b : Blob) (role : String) (mv : Int) (db : KeyDB)
    (d : SignedDoc) (hd : b.doc = some d) (ha : verifyAux d role db = .ok ())
    (hlt : d.version < mv) :
    signedUnmarshal b role mv db = .error (.lowVersion d.version mv) := by
  unfold signedUnmarshal signedVerify
  simp only [hd, ha]
  rw [if_pos hlt]

theorem unmarshalTrusted_ok_doc (b : Blob) (role : String) (db : KeyDB) (d : SignedDoc)
    (h : unmarshalTrusted b role db = .ok d) : b.doc = some d := by
  unfold unmarshalTrusted at h
  cases hb : b.doc with
  | none => simp [hb] at h
  | some d0 =>
    simp only [hb] at h
    cases ha : verifyAux d0 role db with
    | error e => simp [ha] at h
    | ok u =>
      simp only [ha, Except.ok.injEq] at h
      rw [h]

theorem glmRole_floor (w : World) (name role : String) (db : KeyDB)
    (od : Option SignedDoc) (h : glmRole w.localStore name role db = .ok od)
    (v : Int) (hf : docFloorB w name v = true) :
    ∀ d, od = some d → v ≤ d.version := by
  intro d hd
  subst hd
  unfold glmRole at h
  cases hb : assoc w.localStore name with
  | none => simp [hb] at h
  | some b =>
    simp only [hb] at h
    cases hu : unmarshalTrusted b role db with
    | error e => simp [hu] at h
    | ok d0 =>
      simp only [hu, Except.ok.injEq, Option.some.injEq] at h
      have hdoc := unmarshalTrusted_ok_doc b role db d0 hu
      rw [h] at hdoc
      simp only [docFloorB, hb, hdoc, decide_eq_true_eq] at hf
      exact hf

theorem applySnap_verLE (c0 c : ClientState) (od : Option SignedDoc)
    (hle : verLE c0 c) (hv : ∀ d, od = some d → c0.snapshotVer ≤ d.version) :
    verLE c0 (applySnap c od) := by
  cases od with
  | none => exact hle
  | some d => exact ⟨hle.1, hle.2.1, hv d rfl, hle.2.2.2⟩

theorem applyTargets_verLE (c0 c : ClientState) (od : Option SignedDoc)
    (hle : verLE c0 c) (hv : ∀ d, od = some d → c0.targetsVer ≤ d.version) :
    verLE c0 (applyTargets c od) := by
  cases od with
  | none => exact hle
  | some d => exact ⟨hle.1, hv d rfl, hle.2.2.1, hle.2.2.2⟩

theorem applyTs_verLE (c0 c : ClientState) (od : Option SignedDoc)
    (hle : verLE c0 c) (hv : ∀ d, od = some d → c0.timestampVer ≤ d.version) :
    verLE c0 (applyTs c od) := by
  cases od with
  | none => exact hle
  | some d => exact ⟨hle.1, hle.2.1, hle.2.2.1, hv d rfl⟩

theorem glm_verLE (c0 c : ClientState) (w : World)
    (h0 : storeFloorB c0 w = true) (hle : verLE c0 c) :
    verLE c0 ((getLocalMeta c w).1) := by
  obtain ⟨h0s, h0g, h0t⟩ := (storeFloorB_parts c0 w).mp h0
  rcases hroot : assoc w.localStore "root.json" with _ | rb
  · simp only [getLocalMeta, hroot]; exact hle
  · rcases hdoc : rb.doc with _ | rootDoc
    · simp only [getLocalMeta, hroot, hdoc]; exact hle
    · rcases hdb : buildDB rootDoc.keys rootDoc.roles with e | db
      · simp only [getLocalMeta, hroot, hdoc, hdb]; exact hle
      · rcases hv : signedVerify rootDoc "root" 0 db with e | u
        · simp only [getLocalMeta, hroot, hdoc, hdb, hv]; exact hle
        · rcases hs : glmRole w.localStore "snapshot.json" "snapshot" db with e | od
          · simp only [getLocalMeta, hroot, hdoc, hdb, hv, hs]; exact hle
          · rcases hg : glmRole w.localStore "targets.json" "targets" db with e | od2
            · simp only [getLocalMeta, hroot, hdoc, hdb, hv, hs, hg]
              exact applySnap_verLE c0 _ od hle
                (glmRole_floor w "snapshot.json" "snapshot" db od hs _ h0s)
            · rcases ht : glmRole w.localStore "timestamp.json" "timestamp" db with e | od3
              · simp only [getLocalMeta, hroot, hdoc, hdb, hv, hs, hg, ht]
                exact applyTargets_verLE c0 _ od2
                  (applySnap_verLE c0 _ od hle
                    (glmRole_floor w "snapshot.json" "snapshot" db od hs _ h0s))
                  (glmRole_floor w "targets.json" "targets" db od2 hg _ h0g)
              · simp only [getLocalMeta, hroot, hdoc, hdb, hv, hs, hg, ht]
                exact applyTs_verLE c0 _ od3
                  (applyTargets_verLE c0 _ od2
                    (applySnap_verLE c0 _ od hle
                      (glmRole_floor w "snapshot.json" "snapshot" db od hs _ h0s))
                    (glmRole_floor w "targets.json" "targets" db od2 hg _ h0g))
                  (glmRole_floor w "timestamp.json" "timestamp" db od3 ht _ h0t)

theorem decodeRoot_ok (c : ClientState) (b : Blob) (c2 : ClientState) (u : Unit)
    (h : decodeRoot c b = (c2, .ok u)) :
    ∃ d, b.doc = some d ∧ c.rootVer ≤ d.version
      ∧ c2 = { c with rootVer := d.version } := by
  unfold decodeRoot at h
  cases hu : signedUnmarshal b "root" c.rootVer (dbOf c) with
  | error e => simp [hu] at h
  | ok d =>
    simp only [hu, Prod.mk.injEq] at h
    obtain ⟨hver, hdoc⟩ := signedUnmarshal_ok_version _ _ _ _ _ hu
    exact ⟨d, hdoc, hver, h.1.symm⟩

theorem decodeTimestamp_ok (c : ClientState) (b : Blob) (c2 : ClientState) (sm : FileMeta)
    (h : decodeTimestamp c b = (c2, .ok sm)) :
    ∃ d, b.doc = some d ∧ c.timestampVer ≤ d.version
      ∧ c2 = { c with timestampVer := d.version } := by
  unfold decodeTimestamp at h
  cases hu : signedUnmarshal b "timestamp" c.timestampVer (dbOf c) with
  | error e => simp [hu] at h
  | ok d =>
    simp only [hu, Prod.mk.injEq] at h
    obtain ⟨hver, hdoc⟩ := signedUnmarshal_ok_version _ _ _ _ _ hu
    exact ⟨d, hdoc, hver, h.1.symm⟩

theorem decodeSnapshot_ok (c : ClientState) (b : Blob) (c2 : ClientState)
    (mm : FileMeta × FileMeta) (h : decodeSnapshot c b = (c2, .ok mm)) :
    ∃ d, b.doc = some d ∧ c.snapshotVer ≤ d.version
      ∧ c2 = { c with snapshotVer := d.version } := by
  unfold decodeSnapshot at h
  cases hu : signedUnmarshal b "snapshot" c.snapshotVer (dbOf c) with
  | error e => simp [hu] at h
  | ok d =>
    simp only [hu, Prod.mk.injEq] at h
    obtain ⟨hver, hdoc⟩ := signedUnmarshal_ok_version _ _ _ _ _ hu
    exact ⟨d, hdoc, hver, h.1.symm⟩

theorem decodeTargets_ok (c : ClientState) (b : Blob) (c2 : ClientState)
    (upd : List (String × FileMeta)) (h : decodeTargets c b = (c2, .ok upd)) :
    ∃ d, b.doc = some d ∧ c.targetsVer ≤ d.version
      ∧ c2 = { c with targetsVer := d.version, targets := some d.targets } := by
  unfold decodeTargets at h
  cases hu : signedUnmarshal b "targets" c.targetsVer (dbOf c) with
  | error e => simp [hu] at h
  | ok d =>
    simp only [hu, Prod.mk.injEq] at h
    obtain ⟨hver, hdoc⟩ := signedUnmarshal_ok_version _ _ _ _ _ hu
    exact ⟨d, hdoc, hver, h.1.symm⟩

/-- Monotonicity of the update flow under the store-floor condition: when
every parseable trusted document of the local store carries a version at
least the reference state's, a successful run never lowers any of the four
version fields below the reference. -/
theorem updMono (n : Nat) :
    ∀ (call : UpdCall) (c0 c : ClientState) (w : World),
      storeFloorB c0 w = true → verLE c0 c →
      ∀ fs, (updateF n call c w).res = .ok fs → verLE c0 (updateF n call c w).c := by
  induction n with
  | zero =>
    intro call c0 c w hfloor hle fs hres
    simp [updateF] at hres
  | succ n ih =>
    intro call c0 c w hfloor hle
    cases call with
    | upd latestRoot =>
      rcases hglm : getLocalMeta c w with ⟨c1, oe⟩
      have hle1 : verLE c0 c1 := by
        have h0 := glm_verLE c0 c w hfloor hle
        rwa [hglm] at h0
      cases oe with
      | some e =>
        simp only [updateF, hglm]
        split
        · exact ih (.withRoot none) c0 c1 w hfloor hle1
        · intro fs hres
          simp at hres
      | none =>
        simp only [updateF, hglm]
        rcases hdl : dlUnsafeB w "timestamp.json" with e | tb
        · intro fs hres
          simp at hres
        · rcases hdec : decodeTimestamp c1 tb with ⟨c2, rts⟩
          cases rts with
          | error e =>
            have hc2 : c2 = c1 := decodeTimestamp_err _ _ _ _ hdec
            subst hc2
            simp only [hdec]
            split
            · exact ih (.withRoot none) c0 c2 w hfloor hle1
            · intro fs hres
              simp at hres
          | ok sm =>
            obtain ⟨dts, hdoc, hver, hc2⟩ := decodeTimestamp_ok c1 tb c2 sm hdec
            have hle2 : verLE c0 c2 := by
              rw [hc2]
              exact ⟨hle1.1, hle1.2.1, hle1.2.2.1, le_trans hle1.2.2.2 hver⟩
            have hfloor1 : storeFloorB c0 (wset w "timestamp.json" tb) = true :=
              storeFloorB_wset_ts c0 w tb dts hfloor hdoc (le_trans hle1.2.2.2 hver)
            simp only [hdec]
            split
            · intro fs hres
              simp at hres
            · rcases hsdl : dlPinnedB (wset w "timestamp.json" tb) "snapshot.json" sm
                with e | sb
              · intro fs hres
                simp at hres
              · rcases hsdec : decodeSnapshot c2 sb with ⟨c3, rsn⟩
                cases rsn with
                | error e =>
                  have hc3 : c3 = c2 := decodeSnapshot_err _ _ _ _ hsdec
                  subst hc3
                  simp only [hsdec]
                  split
                  · exact ih (.withRoot none) c0 c3 _ hfloor1 hle2
                  · intro fs hres
                    simp at hres
                | ok mm =>
                  obtain ⟨dsn, hdocs, hvers, hc3⟩ := decodeSnapshot_ok c2 sb c3 mm hsdec
                  have hle3 : verLE c0 c3 := by
                    rw [hc3]
                    exact ⟨hle2.1, hle2.2.1, le_trans hle2.2.2.1 hvers, hle2.2.2.2⟩
                  obtain ⟨rm, tm⟩ := mm
                  simp only [hsdec]
                  split
                  · exact ih (.withRoot (some rm)) c0 c3 _ hfloor1 hle3
                  · split
                    · rcases hgdl : dlPinnedB (wset w "timestamp.json" tb) "targets.json" tm
                        with e | gb
                      · intro fs hres
                        simp at hres
                      · rcases hgdec : decodeTargets c3 gb with ⟨c4, rtg⟩
                        cases rtg with
                        | error e =>
                          simp only [hgdec]
                          intro fs hres
                          simp at hres
                        | ok upd =>
                          obtain ⟨dtg, hdocg, hverg, hc4⟩ :=
                            decodeTargets_ok c3 gb c4 upd hgdec
                          simp only [hgdec]
                          intro fs hres
                          rw [hc4]
                          exact ⟨hle3.1, le_trans hle3.2.1 hverg, hle3.2.2.1, hle3.2.2.2⟩
                    · intro fs hres
                      exact hle3
    | withRoot m =>
      rcases hdl : dlRoot w m with e | rb
      · simp only [updateF, hdl]
        intro fs hres
        simp at hres
      · rcases hdec : decodeRoot c rb with ⟨c1, rr⟩
        cases rr with
        | error e =>
          simp only [updateF, hdl, hdec]
          intro fs hres
          simp at hres
        | ok u =>
          obtain ⟨dr, hdocr, hverr, hc1⟩ := decodeRoot_ok c rb c1 u hdec
          have hle1 : verLE c0 c1 := by
            rw [hc1]
            exact ⟨le_trans hle.1 hverr, hle.2.1, hle.2.2.1, hle.2.2.2⟩
          simp only [updateF, hdl, hdec]
          exact ih (.upd true) c0 c1 (wset w "root.json" rb)
            (storeFloorB_wset_root c0 w rb hfloor) hle1

/-- C1 counterexample: a fully successful `Update()` run whose final
timestamp version 1 is strictly below the pre-call version 2 — the local
store (which `getLocalMeta` reloads with no version floor) holds a validly
signed timestamp document at the lower version 1. -/
theorem claim1_counterexample :
    (update c1pre w1).res = .ok []
    ∧ c1pre.timestampVer = 2
    ∧ (update c1pre w1).c.timestampVer = 1 := by
  refine ⟨by decide, by decide, by decide⟩

/-- C1 amended: the four decode functions (the remote install path) never
lower their role's stored version on success and reject a document whose
version lies strictly below the stored one with `DecodeFailed` wrapping
`LowVersion` (given the document passes the type, role and threshold
checks); and a successful `Update()` preserves all four versions whenever
the local store's trusted documents carry versions at least the in-memory
ones — as they do when the store holds exactly what the client last
persisted.  Unconditional monotonicity fails because `getLocalMeta` applies
no version floor when reloading local documents. -/
theorem claim1_version_monotonicity :
    (∀ (c : ClientState) (b : Blob) (c2 : ClientState) (u : Unit),
      decodeRoot c b = (c2, .ok u) → c.rootVer ≤ c2.rootVer)
    ∧ (∀ (c : ClientState) (b : Blob) (c2 : ClientState) (sm : FileMeta),
      decodeTimestamp c b = (c2, .ok sm) → c.timestampVer ≤ c2.timestampVer)
    ∧ (∀ (c : ClientState) (b : Blob) (c2 : ClientState) (mm : FileMeta × FileMeta),
      decodeSnapshot c b = (c2, .ok mm) → c.snapshotVer ≤ c2.snapshotVer)
    ∧ (∀ (c : ClientState) (b : Blob) (c2 : ClientState) (upd : List (String × FileMeta)),
      decodeTargets c b = (c2, .ok upd) → c.targetsVer ≤ c2.targetsVer)
    ∧ (∀ (c : ClientState) (b : Blob) (d : SignedDoc), b.doc = some d →
      verifyAux d "root" (dbOf c) = .ok () → d.version < c.rootVer →
      decodeRoot c b =
        (c, .error (.decodeFailed "root.json" (.lowVersion d.version c.rootVer))))
    ∧ (∀ (c : ClientState) (b : Blob) (d : SignedDoc), b.doc = some d →
      verifyAux d "timestamp" (dbOf c) = .ok () → d.version < c.timestampVer →
      decodeTimestamp c b =
        (c, .error (.decodeFailed "timestamp.json" (.lowVersion d.version c.timestampVer))))
    ∧ (∀ (c : ClientState) (b : Blob) (d : SignedDoc), b.doc = some d →
      verifyAux d "snapshot" (dbOf c) = .ok () → d.version < c.snapshotVer →
      decodeSnapshot c b =
        (c, .error (.decodeFailed "snapshot.json" (.lowVersion d.version c.snapshotVer))))
    ∧ (∀ (c : ClientState) (b : Blob) (d : SignedDoc), b.doc = some d →
      verifyAux d "targets" (dbOf c) = .ok () → d.version < c.targetsVer →
      decodeTargets c b =
        (c, .error (.decodeFailed "targets.json" (.lowVersion d.version c.targetsVer))))
    ∧ (∀ (c : ClientState) (w : World) (fs : List (String × FileMeta)),
      storeFloorB c w = true → (update c w).res = .ok fs → verLE c (update c w).c) := by
  refine ⟨?_, ?_, ?_, ?_, ?_, ?_, ?_, ?_, ?_⟩
  · intro c b c2 u h
    obtain ⟨d, _, hver, hc2⟩ := decodeRoot_ok c b c2 u h
    rw [hc2]
    exact hver
  · intro c b c2 sm h
    obtain ⟨d, _, hver, hc2⟩ := decodeTimestamp_ok c b c2 sm h
    rw [hc2]
    exact hver
  · intro c b c2 mm h
    obtain ⟨d, _, hver, hc2⟩ := decodeSnapshot_ok c b c2 mm h
    rw [hc2]
    exact hver
  · intro c b c2 upd h
    obtain ⟨d, _, hver, hc2⟩ := decodeTargets_ok c b c2 upd h
    rw [hc2]
    exact hver
  · intro c b d hd ha hlt
    unfold decodeRoot
    rw [signedUnmarshal_low b "root" c.rootVer (dbOf c) d hd ha hlt]
  · intro c b d hd ha hlt
    unfold decodeTimestamp
    rw [signedUnmarshal_low b "timestamp" c.timestampVer (dbOf c) d hd ha hlt]
  · intro c b d hd ha hlt
    unfold decodeSnapshot
    rw [signedUnmarshal_low b "snapshot" c.snapshotVer (dbOf c) d hd ha hlt]
  · intro c b d hd ha hlt
    unfold decodeTargets
    rw [signedUnmarshal_low b "targets" c.targetsVer (dbOf c) d hd ha hlt]
  · intro c w fs hfloor hres
    exact updMono 8 (.upd false) c c w hfloor (verLE_refl c) fs hres

/-- C1 witness: under the store-floor condition the concrete update run
keeps every version at least its pre-call value, and a concrete timestamp
document at version 1 against a stored version 2 is rejected with
`DecodeFailed` wrapping `LowVersion`. -/
theorem claim1_witness :
    verLE c8pre (update c8pre w1).c
    ∧ decodeTimestamp c1pre ⟨bT1, some docT1⟩ =
        (c1pre, .error (.decodeFailed "timestamp.json" (.lowVersion 1 2))) := by
  constructor
  · exact claim1_version_monotonicity.2.2.2.2.2.2.2.2 c8pre w1 [] (by decide) (by decide)
  · exact claim1_version_monotonicity.2.2.2.2.2.1 c1pre ⟨bT1, some docT1⟩ docT1 rfl
      (by decide) (by decide)

end GoTuf
